import Mathlib

/-!
Shallow embedding of `process_document` from `run_processing.py` (Archon
document-processing pipeline), together with proofs of the specified
properties of its graph-construction and cross-reference-resolution stage.

External collaborators (the Supabase store, the embedding provider, and the
upstream parse/chunk/enrich phases) are modelled as oracles: pure functions
supplied in an environment, indexed by call count where the real collaborator
is stateful.  Every store call made by the pipeline is recorded in an event
trace so that properties about "what was written" can be stated.

Python truthiness is modelled explicitly where the source relies on it:
a string is truthy iff it is nonempty, an integer iff it is nonzero, an
optional value iff it is present and its payload is truthy.
-/

namespace Archon

/-- Association list lookup, first match wins (Python `dict.get`). -/
def alGet {α β : Type} [DecidableEq α] : List (α × β) → α → Option β
  | [], _ => none
  | p :: rest, k => if p.1 = k then some p.2 else alGet rest k

/-- Association list update (Python `dict[k] = v`): replace the first binding
of `k` in place, else append a new binding at the end. -/
def alSet {α β : Type} [DecidableEq α] : List (α × β) → α → β → List (α × β)
  | [], k, v => [(k, v)]
  | p :: rest, k, v => if p.1 = k then (k, v) :: rest else p :: alSet rest k v

/-- One element of a chunk's `related_sections` list: either a path given as a
list of titles, a pre-joined path string, or any other (unexpected) shape. -/
inductive RelatedItem : Type where
  | list (titles : List String)
  | str (s : String)
  | other
deriving DecidableEq

/-- The chunk metadata fields `process_document` reads
(`chunk["metadata"].get(...)`); absent keys are `none` / `[]`. -/
structure Meta : Type where
  hierarchy_path : List String := []
  section_type : Option String := none
  content_type : Option String := none
  document_position : Option Int := none
  parent_id : Option String := none
  related_sections : List RelatedItem := []
  link_count : Option Int := none
  contains_links : Option Bool := none
deriving DecidableEq

/-- An enriched chunk as consumed by Phase 4; `id` / `metadata` are `none`
when the corresponding dictionary key is absent. -/
structure Chunk : Type where
  id : Option String := none
  metadata : Option Meta := none
  type : Option String := none
  title : Option String := none
  content : Option String := none
  level : Option Int := none
deriving DecidableEq

/-- A storage-ready node record (the dict built at `node_data = {...}`), with
the metadata-payload fields the pipeline later reads promoted to fields.
`embedding_generated` is the flag the embedding provider sets
(`metadata.get("embedding_generated", False)`; absent means `false`). -/
structure NodeRec : Type where
  document_id : String
  node_type : String
  title : Option String
  content : String
  level : Option Int
  path : String
  section_type : String
  content_type : String
  document_position : Option Int
  original_id : Option String
  link_count : Option Int
  contains_links : Option Bool
  embedding_generated : Bool := false
deriving DecidableEq

/-- A node row as returned by `find_nodes_by_path`; only the fields the
pipeline reads (`node.get("id")`, `node.get("document_id")`). -/
structure StoredNode : Type where
  id : Option Int
  document_id : Option String
deriving DecidableEq

/-- The payload of an `insert_reference` call. -/
structure RefData : Type where
  source_node_id : Int
  target_node_id : Int
  reference_type : String
  strength : Rat
deriving DecidableEq

/-- One recorded store / provider call. -/
inductive Event : Type where
  | findNodes (pattern : String) (maxResults : Nat)
  | genEmbeddings (batchSize : Nat)
  | deleteByDoc (docId : String) (ok : Bool)
  | insertNode (n : NodeRec) (ok : Bool)
  | updateParent (nodeId parentId : Int) (ok : Bool)
  | insertRef (r : RefData) (ok : Bool)
deriving DecidableEq

/-- The storage collaborator, as pure oracles.  Stateful calls take the
number of prior calls of the same kind, so results may vary per call. -/
structure DBOracle : Type where
  find_nodes_by_path : String → Nat → Except String (List StoredNode)
  delete_nodes_by_document_id : String → Except String Nat
  insert_node : Nat → NodeRec → Except String Int
  update_node_parent : Nat → Int → Int → Except String Unit
  insert_reference : Nat → RefData → Except String Unit

/-- The embedding collaborator: one batch call that either fails wholesale or
returns the (annotated) records. -/
structure EmbOracle : Type where
  generate_node_embeddings : List NodeRec → Except String (List NodeRec)

/-- Joined path key: `" > ".join(map(str, hierarchy_path)) if hierarchy_path
else "Unknown Path"`. -/
def pathStrOf (hp : List String) : String :=
  if hp = [] then "Unknown Path" else String.intercalate " > " hp

/-- Output of the node-preparation loop over `enriched_chunks`. -/
structure PrepOut : Type where
  nodes : List NodeRec := []
  chunkMap : List (String × Chunk) := []
  pathIdx : List (String × String) := []

/-- One iteration of the node-preparation loop: skip the chunk when `id` or
`metadata` is absent; otherwise record it in `original_id_to_chunk_map`,
build the node record, and (for a truthy id and a non-sentinel path) claim
the path key in `path_to_original_id_map`. -/
def prepStep (docId : String) (st : PrepOut) (c : Chunk) : PrepOut :=
  match c.id, c.metadata with
  | some oid, some m =>
    let pathStr := pathStrOf m.hierarchy_path
    let node : NodeRec :=
      { document_id := docId
        node_type := c.type.getD "unknown"
        title := c.title
        content := c.content.getD ""
        level := c.level
        path := pathStr
        section_type := m.section_type.getD "unknown"
        content_type := m.content_type.getD "text"
        document_position := m.document_position
        original_id := some oid
        link_count := m.link_count
        contains_links := m.contains_links
        embedding_generated := false }
    { nodes := st.nodes ++ [node]
      chunkMap := alSet st.chunkMap oid c
      pathIdx :=
        if pathStr ≠ "Unknown Path" ∧ oid ≠ "" then alSet st.pathIdx pathStr oid
        else st.pathIdx }
  | _, _ => st

def prepGo (docId : String) : PrepOut → List Chunk → PrepOut
  | st, [] => st
  | st, c :: rest => prepGo docId (prepStep docId st c) rest

/-- The full node-preparation loop (`for chunk in enriched_chunks`). -/
def prepNodes (docId : String) (chunks : List Chunk) : PrepOut :=
  prepGo docId {} chunks

/-- Normalization of one `related_sections` element to a path-key string:
join a list with `" > "`, keep a string as-is, skip any other shape. -/
def mentionKey : RelatedItem → Option String
  | RelatedItem.list ts => some (String.intercalate " > " ts)
  | RelatedItem.str s => some s
  | RelatedItem.other => none

/-- `chunk_data.get("metadata", {}).get("related_sections", [])`. -/
def relatedOf (c : Chunk) : List RelatedItem :=
  (c.metadata.map Meta.related_sections).getD []

/-- Accumulator of the exact-resolution loop: resolved `(source, target)`
original-id pairs, and the pending fuzzy path keys in first-insertion order
(Python uses a `set`; this model fixes a deterministic iteration order). -/
structure ResolveOut : Type where
  exact : List (String × String) := []
  pending : List String := []
deriving DecidableEq

/-- One `related_sections` element of one chunk: look the normalized key up
in `path_to_original_id_map`; a truthy hit different from the source becomes
an exact pair, a truthy hit equal to the source is dropped, anything else
joins the pending fuzzy set. -/
def resolveStep (pathIdx : List (String × String)) (src : String)
    (acc : ResolveOut) (it : RelatedItem) : ResolveOut :=
  match mentionKey it with
  | none => acc
  | some k =>
    match alGet pathIdx k with
    | some t =>
      if t = "" then
        if k ∈ acc.pending then acc else { acc with pending := acc.pending ++ [k] }
      else
        if src = t then acc else { acc with exact := acc.exact ++ [(src, t)] }
    | none =>
      if k ∈ acc.pending then acc else { acc with pending := acc.pending ++ [k] }

def resolveItems (pathIdx : List (String × String)) (src : String) :
    ResolveOut → List RelatedItem → ResolveOut
  | acc, [] => acc
  | acc, it :: rest => resolveItems pathIdx src (resolveStep pathIdx src acc it) rest

def resolveGo (pathIdx : List (String × String)) :
    ResolveOut → List (String × Chunk) → ResolveOut
  | acc, [] => acc
  | acc, e :: rest =>
    resolveGo pathIdx (resolveItems pathIdx e.1 acc (relatedOf e.2)) rest

/-- The exact-reference resolution loop
(`for original_id, chunk_data in original_id_to_chunk_map.items()`). -/
def resolveRefs (chunkMap : List (String × Chunk))
    (pathIdx : List (String × String)) : ResolveOut :=
  resolveGo pathIdx {} chunkMap

/-- The wildcard wrapping applied to a fuzzy pattern before querying. -/
def wrapPattern (p : String) : String := "%" ++ p ++ "%"

/-- State of the batch fuzzy-lookup loop. -/
structure FuzzyOut : Type where
  map : List (String × List StoredNode) := []
  errors : Nat := 0
  events : List Event := []

/-- One fuzzy lookup: query the store with the wildcard-wrapped pattern and
`max_results=10`; keep only rows of the current document; store the filtered
list only when both the raw and the filtered lists are nonempty; count a
query failure and continue. -/
def fuzzyStep (db : DBOracle) (docId : String) (st : FuzzyOut) (p : String) :
    FuzzyOut :=
  let ev := Event.findNodes (wrapPattern p) 10
  match db.find_nodes_by_path (wrapPattern p) 10 with
  | Except.ok raw =>
    if raw = [] then { st with events := st.events ++ [ev] }
    else
      let filt := raw.filter (fun n => n.document_id == some docId)
      if filt = [] then { st with events := st.events ++ [ev] }
      else { st with map := alSet st.map p filt, events := st.events ++ [ev] }
  | Except.error _ =>
    { st with errors := st.errors + 1, events := st.events ++ [ev] }

def fuzzyGo (db : DBOracle) (docId : String) : FuzzyOut → List String → FuzzyOut
  | st, [] => st
  | st, p :: rest => fuzzyGo db docId (fuzzyStep db docId st p) rest

/-- The batch fuzzy-lookup loop (`for path_pattern in paths_needing_fuzzy_lookup`). -/
def fuzzyLookups (db : DBOracle) (docId : String) (pending : List String) :
    FuzzyOut :=
  fuzzyGo db docId {} pending

/-- State of the node-insertion loop. -/
structure InsState : Type where
  idMap : List (String × Int) := []
  inserted : Nat := 0
  failed : Nat := 0
  calls : Nat := 0
  events : List Event := []

/-- The gate a record must pass before `insert_node` is attempted: a truthy
`original_id` in its metadata and `embedding_generated` true. -/
def nodeGate (n : NodeRec) : Bool :=
  (n.original_id.getD "" != "") && n.embedding_generated

/-- One iteration of the insertion loop: skip (count as failed) a record
with a falsy `original_id` or without `embedding_generated`; otherwise
attempt `insert_node`, mapping the original id to the storage id on success
and counting a failure otherwise. -/
def insertStep (db : DBOracle) (st : InsState) (n : NodeRec) : InsState :=
  match n.original_id with
  | none => { st with failed := st.failed + 1 }
  | some oid =>
    if oid = "" then { st with failed := st.failed + 1 }
    else if ¬n.embedding_generated then { st with failed := st.failed + 1 }
    else
      match db.insert_node st.calls n with
      | Except.ok dbId =>
        { st with idMap := alSet st.idMap oid dbId
                  inserted := st.inserted + 1
                  calls := st.calls + 1
                  events := st.events ++ [Event.insertNode n true] }
      | Except.error _ =>
        { st with failed := st.failed + 1
                  calls := st.calls + 1
                  events := st.events ++ [Event.insertNode n false] }

def insertGo (db : DBOracle) : InsState → List NodeRec → InsState
  | st, [] => st
  | st, n :: rest => insertGo db (insertStep db st n) rest

/-- The node-insertion loop (`for node in db_nodes_with_embeddings`). -/
def insertNodes (db : DBOracle) (nodes : List NodeRec) : InsState :=
  insertGo db {} nodes

/-- State of the relationship-creation phase (parent links plus both
reference passes, which share `inserted_reference_pairs`). -/
structure RelState : Type where
  links : Nat := 0
  linkErrors : Nat := 0
  refs : Nat := 0
  refErrors : Nat := 0
  pairs : List (Int × Int) := []
  refCalls : Nat := 0
  parentCalls : Nat := 0
  events : List Event := []

/-- One guarded reference insertion: skip a pair already in
`inserted_reference_pairs`; otherwise attempt `insert_reference`, adding the
pair to the set only after the store write succeeds. -/
def refAttempt (db : DBOracle) (st : RelState) (src tgt : Int)
    (rtype : String) (strength : Rat) : RelState :=
  if (src, tgt) ∈ st.pairs then st
  else
    let rd : RefData :=
      { source_node_id := src, target_node_id := tgt
        reference_type := rtype, strength := strength }
    match db.insert_reference st.refCalls rd with
    | Except.ok _ =>
      { st with refs := st.refs + 1
                pairs := st.pairs ++ [(src, tgt)]
                refCalls := st.refCalls + 1
                events := st.events ++ [Event.insertRef rd true] }
    | Except.error _ =>
      { st with refErrors := st.refErrors + 1
                refCalls := st.refCalls + 1
                events := st.events ++ [Event.insertRef rd false] }

/-- One parent-link update: look the source chunk up, and when its declared
`parent_id` is truthy and maps to a storage id, attempt
`update_node_parent`. -/
def parentStep (db : DBOracle) (chunkMap : List (String × Chunk))
    (idMap : List (String × Int)) (st : RelState) (e : String × Int) : RelState :=
  match alGet chunkMap e.1 with
  | none => st
  | some c =>
    match (c.metadata.map Meta.parent_id).getD none with
    | none => st
    | some p =>
      if p = "" then st
      else
        match alGet idMap p with
        | none => st
        | some dbParent =>
          match db.update_node_parent st.parentCalls e.2 dbParent with
          | Except.ok _ =>
            { st with links := st.links + 1
                      parentCalls := st.parentCalls + 1
                      events := st.events ++ [Event.updateParent e.2 dbParent true] }
          | Except.error _ =>
            { st with linkErrors := st.linkErrors + 1
                      parentCalls := st.parentCalls + 1
                      events := st.events ++ [Event.updateParent e.2 dbParent false] }

def parentGo (db : DBOracle) (chunkMap : List (String × Chunk))
    (idMap : List (String × Int)) : RelState → List (String × Int) → RelState
  | st, [] => st
  | st, e :: rest => parentGo db chunkMap idMap (parentStep db chunkMap idMap st e) rest

/-- The parent-link loop (`for original_id, db_id in original_id_to_db_id_map.items()`). -/
def parentPass (db : DBOracle) (chunkMap : List (String × Chunk))
    (idMap : List (String × Int)) (st : RelState) : RelState :=
  parentGo db chunkMap idMap st idMap

/-- One exact candidate pair: resolve both ends through the id map; require
both storage ids truthy and distinct, then attempt the insertion with
`reference_type="related_section_exact"` and strength 0.9 (`mkRat 9 10`). -/
def exactStep (db : DBOracle) (idMap : List (String × Int)) (st : RelState)
    (pr : String × String) : RelState :=
  match alGet idMap pr.1, alGet idMap pr.2 with
  | some s, some t =>
    if s ≠ 0 ∧ t ≠ 0 ∧ s ≠ t then
      refAttempt db st s t "related_section_exact" (mkRat 9 10)
    else st
  | some _, none => st
  | none, _ => st

def exactGo (db : DBOracle) (idMap : List (String × Int)) :
    RelState → List (String × String) → RelState
  | st, [] => st
  | st, pr :: rest => exactGo db idMap (exactStep db idMap st pr) rest

/-- The exact-reference pass
(`for source_orig_id, target_orig_id in exact_resolved_references`). -/
def exactPass (db : DBOracle) (idMap : List (String × Int))
    (exact : List (String × String)) (st : RelState) : RelState :=
  exactGo db idMap st exact

/-- The inner loop of the fuzzy pass over one pattern's candidate rows:
require a truthy target id that is among the values of the id map and
differs from the source, then attempt the insertion with
`reference_type="related_section_fuzzy"` and strength 0.7 (`mkRat 7 10`). -/
def fuzzyTargets (db : DBOracle) (idMap : List (String × Int)) (srcDb : Int) :
    RelState → List StoredNode → RelState
  | st, [] => st
  | st, tn :: rest =>
    let st' :=
      match tn.id with
      | some tid =>
        if tid ≠ 0 ∧ tid ∈ idMap.map Prod.snd ∧ tid ≠ srcDb then
          refAttempt db st srcDb tid "related_section_fuzzy" (mkRat 7 10)
        else st
      | none => st
    fuzzyTargets db idMap srcDb st' rest

/-- One `related_sections` element in the fuzzy pass: only keys present in
the fuzzy candidate map produce insertion attempts. -/
def fuzzyItemStep (db : DBOracle) (idMap : List (String × Int))
    (fuzzyMap : List (String × List StoredNode)) (srcDb : Int)
    (st : RelState) (it : RelatedItem) : RelState :=
  match mentionKey it with
  | none => st
  | some k =>
    match alGet fuzzyMap k with
    | none => st
    | some targets => fuzzyTargets db idMap srcDb st targets

def fuzzyItems (db : DBOracle) (idMap : List (String × Int))
    (fuzzyMap : List (String × List StoredNode)) (srcDb : Int) :
    RelState → List RelatedItem → RelState
  | st, [] => st
  | st, it :: rest =>
    fuzzyItems db idMap fuzzyMap srcDb (fuzzyItemStep db idMap fuzzyMap srcDb st it) rest

def fuzzyChunks (db : DBOracle) (idMap : List (String × Int))
    (fuzzyMap : List (String × List StoredNode)) :
    RelState → List (String × Chunk) → RelState
  | st, [] => st
  | st, e :: rest =>
    let st' :=
      match alGet idMap e.1 with
      | some s =>
        if s ≠ 0 then fuzzyItems db idMap fuzzyMap s st (relatedOf e.2) else st
      | none => st
    fuzzyChunks db idMap fuzzyMap st' rest

/-- The fuzzy-reference pass
(`for original_id, chunk_data in original_id_to_chunk_map.items()`). -/
def fuzzyPass (db : DBOracle) (idMap : List (String × Int))
    (chunkMap : List (String × Chunk))
    (fuzzyMap : List (String × List StoredNode)) (st : RelState) : RelState :=
  fuzzyChunks db idMap fuzzyMap st chunkMap

/-- The observable outcome of one `process_document` run: the returned value
(`some document_id` on success, `none` on failure), the trace of store and
provider calls, and the printed aggregate counts. -/
structure RunResult : Type where
  ret : Option String := none
  events : List Event := []
  inserted : Nat := 0
  failed : Nat := 0
  fuzzyErrors : Nat := 0
  parentLinks : Nat := 0
  parentErrors : Nat := 0
  refsCreated : Nat := 0
  refErrors : Nat := 0
deriving DecidableEq

/-- Phase 4 of `process_document`, from node preparation to relationship
creation, starting from the enriched chunk list. -/
def runPhase4 (db : DBOracle) (emb : EmbOracle) (docId : String)
    (chunks : List Chunk) : RunResult :=
  let pr := prepNodes docId chunks
  if pr.nodes = [] then { ret := some docId }
  else
    let rs := resolveRefs pr.chunkMap pr.pathIdx
    let fz := fuzzyLookups db docId rs.pending
    let evs := fz.events ++ [Event.genEmbeddings pr.nodes.length]
    match emb.generate_node_embeddings pr.nodes with
    | Except.error _ =>
      { ret := none, events := evs, fuzzyErrors := fz.errors }
    | Except.ok nodesEmb =>
      let clearOk := (db.delete_nodes_by_document_id docId).toOption.isSome
      let evs := evs ++ [Event.deleteByDoc docId clearOk]
      let ins := insertNodes db nodesEmb
      let evs := evs ++ ins.events
      if ins.inserted = 0 ∧ ins.failed > 0 then
        { ret := none, events := evs, inserted := ins.inserted
          failed := ins.failed, fuzzyErrors := fz.errors }
      else
        let rel := parentPass db pr.chunkMap ins.idMap {}
        let rel := exactPass db ins.idMap rs.exact rel
        let rel := fuzzyPass db ins.idMap pr.chunkMap fz.map rel
        { ret := some docId
          events := evs ++ rel.events
          inserted := ins.inserted
          failed := ins.failed
          fuzzyErrors := fz.errors
          parentLinks := rel.links
          parentErrors := rel.linkErrors
          refsCreated := rel.refs
          refErrors := rel.refErrors }

/-- The final path component of a file path (trailing separators stripped),
as in `pathlib.PurePath.name`. -/
def pathName (p : String) : String :=
  (((p.toList.reverse.dropWhile (· = '/')).takeWhile (· ≠ '/')).reverse).asString

/-- `pathlib.PurePath.stem`: the final component without its suffix, where a
suffix starts at the last dot provided that dot is neither the first nor the
last character of the name. -/
def pathStem (p : String) : String :=
  let name := pathName p
  let cs := name.toList
  let ridx := cs.reverse.indexOf '.'
  if ridx < cs.length then
    let i := cs.length - 1 - ridx
    if 0 < i ∧ i < cs.length - 1 then (cs.take i).asString else name
  else name

/-- `effective_document_id = document_id or Path(file_path).stem`
(Python `or`: a supplied empty string is falsy and falls back to the stem). -/
def effectiveDocId (file_path : String) (document_id : Option String) : String :=
  match document_id with
  | some s => if s ≠ "" then s else pathStem file_path
  | none => pathStem file_path

/-- The environment of one run: the collaborators plus oracles for the
phases preceding Phase 4 (component construction, file access, parsing,
chunking, enrichment), each `none`/`false` when that phase raises. -/
structure Env : Type where
  db : DBOracle
  emb : EmbOracle
  file_exists : Bool := true
  init_ok : Bool := true
  read_result : Option String := none
  parse_ok : Bool := true
  chunks_result : Option (List Chunk) := none
  enrich_result : Option (List Chunk) := none

/-- Python `str.strip()`: whitespace removed from both ends. -/
def pyStrip (s : String) : String :=
  (((s.toList.dropWhile Char.isWhitespace).reverse.dropWhile
    Char.isWhitespace).reverse).asString

/-- The full `process_document(file_path, document_id)` control flow. -/
def processDocument (env : Env) (file_path : String)
    (document_id : Option String) : RunResult :=
  if ¬env.file_exists then {}
  else
    let docId := effectiveDocId file_path document_id
    if ¬env.init_ok then {}
    else
      match env.read_result with
      | none => {}
      | some text =>
        if pyStrip text = "" then { ret := some docId }
        else if ¬env.parse_ok then {}
        else
          match env.chunks_result with
          | none => {}
          | some _ =>
            match env.enrich_result with
            | none => {}
            | some enriched => runPhase4 env.db env.emb docId enriched

/-! ### Basic lemmas about the association-list model -/

theorem alGet_alSet {α β : Type} [DecidableEq α]
    (m : List (α × β)) (k : α) (v : β) (k' : α) :
    alGet (alSet m k v) k' = if k' = k then some v else alGet m k' := by
  induction m with
  | nil =>
    by_cases h : k' = k
    · simp [alGet, alSet, h]
    · simp [alGet, alSet, h, Ne.symm h]
  | cons p rest ih =>
    simp only [alSet]
    by_cases h : p.1 = k
    · simp only [if_pos h]
      by_cases h' : k' = k
      · simp [alGet, h']
      · have h1 : ¬(k = k') := fun hh => h' hh.symm
        have h2 : ¬(p.1 = k') := fun hh => h' (hh.symm.trans h)
        simp [alGet, h', h1, h2]
    · simp only [if_neg h, alGet, ih]
      by_cases hp : p.1 = k'
      · have h3 : ¬(k' = k) := fun hh => h (hp.trans hh)
        simp [hp, h3]
      · simp [hp]

theorem getLast?_cons_eq {α : Type} (a : α) (l : List α) :
    (a :: l).getLast? = match l.getLast? with
      | some v => some v
      | none => some a := by
  cases l with
  | nil => rfl
  | cons b t =>
    rw [List.getLast?_cons_cons]
    cases hl : (b :: t).getLast? with
    | some v => rfl
    | none => exact absurd (List.getLast?_eq_none_iff.mp hl) (by simp)

/-! ### C9: the path index is last-writer-wins over non-sentinel paths -/

/-- The original id a chunk contributes to the path index at key `k`, if
any: the chunk must carry an id and metadata, its joined path must equal `k`,
`k` must not be the sentinel, and the id must be truthy. -/
def registersKey (k : String) (c : Chunk) : Option String :=
  match c.id, c.metadata with
  | some oid, some m =>
    if pathStrOf m.hierarchy_path = k ∧ k ≠ "Unknown Path" ∧ oid ≠ "" then some oid
    else none
  | some _, none => none
  | none, _ => none

/-- All contributions to path key `k`, in chunk order. -/
def registrants (chunks : List Chunk) (k : String) : List String :=
  chunks.filterMap (registersKey k)

theorem prepStep_pathIdx (docId : String) (st : PrepOut) (c : Chunk) (k : String) :
    alGet (prepStep docId st c).pathIdx k =
      match registersKey k c with
      | some oid => some oid
      | none => alGet st.pathIdx k := by
  match hid : c.id, hmd : c.metadata with
  | some oid, some m =>
    simp only [prepStep, hid, hmd, registersKey]
    by_cases hc : pathStrOf m.hierarchy_path ≠ "Unknown Path" ∧ oid ≠ ""
    · simp only [if_pos hc, alGet_alSet]
      by_cases hk : pathStrOf m.hierarchy_path = k
      · simp [hk, hc.1, hc.2, hk ▸ hc.1]
      · have hk' : ¬(k = pathStrOf m.hierarchy_path) := fun hh => hk hh.symm
        simp only [hk', if_false]
        simp [hk]
    · simp only [if_neg hc]
      by_cases hk : pathStrOf m.hierarchy_path = k
      · have hcond : ¬(k ≠ "Unknown Path" ∧ oid ≠ "") := fun hh =>
          hc ⟨hk.symm ▸ hh.1, hh.2⟩
        simp [hk, hcond]
      · simp [hk]
  | some _, none => simp [prepStep, hid, hmd, registersKey]
  | none, _ => simp [prepStep, hid, registersKey]

theorem prepGo_pathIdx (docId : String) (k : String) :
    ∀ (chunks : List Chunk) (st : PrepOut),
      alGet (prepGo docId st chunks).pathIdx k =
        match (registrants chunks k).getLast? with
        | some v => some v
        | none => alGet st.pathIdx k := by
  intro chunks
  induction chunks with
  | nil => intro st; simp [prepGo, registrants]
  | cons c rest ih =>
    intro st
    simp only [prepGo]
    rw [ih, prepStep_pathIdx]
    simp only [registrants, List.filterMap_cons]
    cases hreg : registersKey k c with
    | none =>
      simp only [hreg]
    | some oid =>
      simp only [hreg, getLast?_cons_eq]
      cases (List.filterMap (registersKey k) rest).getLast? <;> rfl

/-- C9: within one preparation pass, the path index maps each key to the
truthy id of the **last** chunk claiming that key (a later chunk with the
same joined path silently overwrites an earlier one), and the sentinel
`"Unknown Path"` is never registered. -/
theorem C9_path_index_last_writer_wins (docId : String) (chunks : List Chunk) :
    (∀ k : String,
        alGet (prepNodes docId chunks).pathIdx k = (registrants chunks k).getLast?)
    ∧ alGet (prepNodes docId chunks).pathIdx "Unknown Path" = none := by
  have base : ∀ k : String,
      alGet (prepNodes docId chunks).pathIdx k = (registrants chunks k).getLast? := by
    intro k
    rw [prepNodes, prepGo_pathIdx]
    cases hl : (registrants chunks k).getLast? with
    | none => simp [PrepOut.pathIdx, alGet]
    | some v => rfl
  refine ⟨base, ?_⟩
  rw [base "Unknown Path"]
  have hnil : registrants chunks "Unknown Path" = [] := by
    rw [registrants, List.filterMap_eq_nil_iff]
    intro c _
    match hid : c.id, hmd : c.metadata with
    | some oid, some m => simp [registersKey, hid, hmd]
    | some _, none => simp [registersKey, hid, hmd]
    | none, _ => simp [registersKey, hid]
  rw [hnil]
  rfl

/-! ### C10: every successful return is the effective document id -/

theorem runPhase4_ret_some (db : DBOracle) (emb : EmbOracle) (docId : String)
    (chunks : List Chunk) (s : String) :
    (runPhase4 db emb docId chunks).ret = some s → s = docId := by
  intro h
  simp only [runPhase4] at h
  split at h
  · exact (Option.some_inj.mp h).symm
  · split at h
    · simp at h
    · split at h
      · simp at h
      · exact (Option.some_inj.mp h).symm

theorem processDocument_ret_some (env : Env) (fp : String) (did : Option String)
    (s : String) :
    (processDocument env fp did).ret = some s → s = effectiveDocId fp did := by
  intro h
  simp only [processDocument] at h
  split at h
  · simp at h
  · split at h
    · simp at h
    · split at h
      · simp at h
      · rename_i text
        split at h
        · exact (Option.some_inj.mp h).symm
        · split at h
          · simp at h
          · split at h
            · simp at h
            · split at h
              · simp at h
              · exact runPhase4_ret_some env.db env.emb _ _ s h

/-- A store whose every call fails (e.g. the backend is unreachable). -/
def dbFail : DBOracle :=
  { find_nodes_by_path := fun _ _ => Except.error "unavailable"
    delete_nodes_by_document_id := fun _ => Except.error "unavailable"
    insert_node := fun _ _ => Except.error "unavailable"
    update_node_parent := fun _ _ _ => Except.error "unavailable"
    insert_reference := fun _ _ => Except.error "unavailable" }

/-- An embedding provider that succeeds on every record. -/
def embOk : EmbOracle :=
  { generate_node_embeddings := fun ns =>
      Except.ok (ns.map (fun n => { n with embedding_generated := true })) }

/-- An environment whose source file exists but is empty, so the run returns
the effective document id before any phase runs. -/
def envEmptyText : Env :=
  { db := dbFail, emb := embOk, read_result := some "" }

/-- C10 counterexample: with the caller-supplied document id `""`
(given, but falsy in Python), a successful run returns the filename stem
`"guide"`, not the caller-supplied value — so the returned value is NOT
always "the caller-supplied id when given". -/
theorem C10_counterexample :
    (processDocument envEmptyText "docs/guide.md" (some "")).ret = some "guide"
    ∧ ("guide" : String) ≠ "" := by
  exact ⟨by decide, by decide⟩

/-- C10 (amended): the effective document id is the caller-supplied id when
it is given **and non-empty** (Python `or` treats an empty string as
absent), otherwise the filename stem; every successful run returns exactly
the effective document id. -/
theorem C10_returns_effective_id (env : Env) (fp : String) (did : Option String) :
    (∀ s, (processDocument env fp did).ret = some s → s = effectiveDocId fp did)
    ∧ effectiveDocId fp none = pathStem fp
    ∧ effectiveDocId fp (some "") = pathStem fp
    ∧ (∀ t, t ≠ "" → effectiveDocId fp (some t) = t) := by
  refine ⟨fun s h => processDocument_ret_some env fp did s h, rfl, rfl, ?_⟩
  intro t ht
  simp [effectiveDocId, ht]

/-- C10 witness: concrete instantiation of the amended theorem on a run
that succeeds with no id supplied. -/
theorem C10_witness : ("guide" : String) = effectiveDocId "docs/guide.md" none :=
  (C10_returns_effective_id envEmptyText "docs/guide.md" none).1 "guide" (by decide)

/-! ### C3: zero inserted with positive failures is fatal -/

theorem runPhase4_all_inserts_failed (db : DBOracle) (emb : EmbOracle)
    (docId : String) (chunks : List Chunk) :
    (runPhase4 db emb docId chunks).inserted = 0 ∧
      (runPhase4 db emb docId chunks).failed > 0 →
    (runPhase4 db emb docId chunks).ret = none := by
  simp only [runPhase4]
  split
  · intro h
    exact absurd h.2 (by simp)
  · split
    · intro _
      rfl
    · split
      · intro _
        rfl
      · rename_i hguard
        intro h
        exact absurd ⟨h.1, h.2⟩ hguard

/-- C3: whenever the run ends with zero inserted nodes and a positive failed
count (at least one insertion was attempted and all failed), it reports
failure: the returned document id is `none`. -/
theorem C3_zero_inserted_is_fatal (env : Env) (fp : String) (did : Option String) :
    (processDocument env fp did).inserted = 0 ∧
      (processDocument env fp did).failed > 0 →
    (processDocument env fp did).ret = none := by
  simp only [processDocument]
  split
  · intro _
    rfl
  · split
    · intro _
      rfl
    · split
      · intro _
        rfl
      · split
        · intro h
          exact absurd h.2 (by simp)
        · split
          · intro _
            rfl
          · split
            · intro _
              rfl
            · split
              · intro _
                rfl
              · exact runPhase4_all_inserts_failed env.db env.emb _ _

/-- An environment with one valid chunk whose node insertion always fails. -/
def envAllInsertsFail : Env :=
  { db := dbFail, emb := embOk, read_result := some "hello"
    chunks_result := some [], enrich_result := some [{ id := some "A", metadata := some {} }] }

/-- C3 witness: with a store whose inserts all fail, the single attempted
node yields inserted 0, failed 1, and the run returns no document id. -/
theorem C3_witness :
    (processDocument envAllInsertsFail "docs/guide.md" none).inserted = 0 ∧
    (processDocument envAllInsertsFail "docs/guide.md" none).failed > 0 ∧
    (processDocument envAllInsertsFail "docs/guide.md" none).ret = none := by
  refine ⟨by decide, by decide, ?_⟩
  exact C3_zero_inserted_is_fatal envAllInsertsFail "docs/guide.md" none
    ⟨by decide, by decide⟩

/-! ### C6: an empty prepared node list is a successful no-op -/

/-- C6: when every chunk is discarded during node preparation (the prepared
node-record list is empty), `process_document` returns the document id with
an empty call trace: no fuzzy lookup, no embedding call, no store write. -/
theorem C6_empty_nodes_success (env : Env) (fp : String) (did : Option String)
    (text : String) (ec : List Chunk) (cl : List Chunk)
    (hf : env.file_exists = true) (hi : env.init_ok = true)
    (hr : env.read_result = some text) (ht : pyStrip text ≠ "")
    (hp : env.parse_ok = true) (hc : env.chunks_result = some cl)
    (he : env.enrich_result = some ec)
    (hnodes : (prepNodes (effectiveDocId fp did) ec).nodes = []) :
    processDocument env fp did =
      { ret := some (effectiveDocId fp did), events := [] } := by
  simp only [processDocument, hf, hi, hr, hp, hc, he, runPhase4, hnodes, ht]
  simp

/-- An environment that reaches Phase 4 with a single chunk that lacks an
id, so no node record is prepared. -/
def envNoValidChunks : Env :=
  { db := dbFail, emb := embOk, read_result := some "hello"
    chunks_result := some [], enrich_result := some [{ metadata := some {} }] }

/-- C6 witness: concrete zero-valid-chunk run returning the document id. -/
theorem C6_witness :
    processDocument envNoValidChunks "docs/guide.md" none =
      { ret := some "guide", events := [] } :=
  C6_empty_nodes_success envNoValidChunks "docs/guide.md" none "hello"
    [{ metadata := some {} }] [] rfl rfl rfl (by decide) rfl rfl rfl (by decide)

/-! ### C5: the batch fuzzy-lookup loop -/

/-- Whether an external call raised. -/
def exceptFails {ε α : Type} : Except ε α → Bool
  | Except.error _ => true
  | Except.ok _ => false

/-- What one fuzzy lookup for pattern `p` contributes to the candidate map:
the document-filtered result when the query succeeds and both the raw and
filtered lists are nonempty, and nothing otherwise. -/
def expectedLookup (db : DBOracle) (docId : String) (p : String) :
    Option (List StoredNode) :=
  match db.find_nodes_by_path (wrapPattern p) 10 with
  | Except.error _ => none
  | Except.ok raw =>
    if raw = [] then none
    else
      let filt := raw.filter (fun n => n.document_id == some docId)
      if filt = [] then none else some filt

theorem fuzzyStep_events (db : DBOracle) (docId : String) (st : FuzzyOut)
    (p : String) :
    (fuzzyStep db docId st p).events =
      st.events ++ [Event.findNodes (wrapPattern p) 10] := by
  simp only [fuzzyStep]
  cases db.find_nodes_by_path (wrapPattern p) 10 with
  | error e => rfl
  | ok raw =>
    by_cases h1 : raw = []
    · simp only [if_pos h1]
    · simp only [if_neg h1]
      by_cases h2 : raw.filter (fun n => n.document_id == some docId) = []
      · simp only [if_pos h2]
      · simp only [if_neg h2]

theorem fuzzyGo_events (db : DBOracle) (docId : String) :
    ∀ (ps : List String) (st : FuzzyOut),
      (fuzzyGo db docId st ps).events =
        st.events ++ ps.map (fun p => Event.findNodes (wrapPattern p) 10) := by
  intro ps
  induction ps with
  | nil => intro st; simp [fuzzyGo]
  | cons p rest ih =>
    intro st
    simp only [fuzzyGo, ih, fuzzyStep_events, List.map_cons, List.append_assoc,
      List.singleton_append]

theorem fuzzyStep_map (db : DBOracle) (docId : String) (st : FuzzyOut)
    (p q : String) :
    alGet (fuzzyStep db docId st p).map q =
      if q = p ∧ expectedLookup db docId p ≠ none then expectedLookup db docId p
      else alGet st.map q := by
  simp only [fuzzyStep, expectedLookup]
  cases db.find_nodes_by_path (wrapPattern p) 10 with
  | error e => simp
  | ok raw =>
    by_cases h1 : raw = []
    · simp [h1]
    · simp only [if_neg h1]
      by_cases h2 : raw.filter (fun n => n.document_id == some docId) = []
      · rw [if_pos h2, if_pos h2]
        simp
      · rw [if_neg h2, if_neg h2]
        simp only [alGet_alSet]
        by_cases hq : q = p
        · simp [hq, h2]
        · simp [hq]

theorem fuzzyGo_map (db : DBOracle) (docId : String) :
    ∀ (ps : List String) (st : FuzzyOut) (q : String),
      alGet (fuzzyGo db docId st ps).map q =
        if q ∈ ps ∧ expectedLookup db docId q ≠ none then expectedLookup db docId q
        else alGet st.map q := by
  intro ps
  induction ps with
  | nil => intro st q; simp [fuzzyGo]
  | cons p rest ih =>
    intro st q
    simp only [fuzzyGo, ih, fuzzyStep_map, List.mem_cons]
    by_cases hrest : q ∈ rest ∧ expectedLookup db docId q ≠ none
    · simp [hrest.1, hrest.2]
    · simp only [if_neg hrest]
      by_cases hp : q = p ∧ expectedLookup db docId p ≠ none
      · have hq : expectedLookup db docId q ≠ none := by
          rw [hp.1]
          exact hp.2
        simp [hp, hp.1, hq]
      · simp only [if_neg hp]
        by_cases hc : (q = p ∨ q ∈ rest) ∧ expectedLookup db docId q ≠ none
        · exfalso
          rcases hc.1 with h | h
          · refine hp ⟨h, ?_⟩
            rw [← h]
            exact hc.2
          · exact hrest ⟨h, hc.2⟩
        · simp [hc]

theorem fuzzyStep_errors (db : DBOracle) (docId : String) (st : FuzzyOut)
    (p : String) :
    (fuzzyStep db docId st p).errors =
      st.errors +
        (if exceptFails (db.find_nodes_by_path (wrapPattern p) 10) then 1 else 0) := by
  simp only [fuzzyStep]
  cases db.find_nodes_by_path (wrapPattern p) 10 with
  | error e => simp [exceptFails]
  | ok raw =>
    by_cases h1 : raw = []
    · simp only [if_pos h1]
      simp [exceptFails]
    · simp only [if_neg h1]
      by_cases h2 : raw.filter (fun n => n.document_id == some docId) = []
      · simp only [if_pos h2]
        simp [exceptFails]
      · simp only [if_neg h2]
        simp [exceptFails]

theorem fuzzyGo_errors (db : DBOracle) (docId : String) :
    ∀ (ps : List String) (st : FuzzyOut),
      (fuzzyGo db docId st ps).errors =
        st.errors +
          ps.countP (fun p => exceptFails (db.find_nodes_by_path (wrapPattern p) 10)) := by
  intro ps
  induction ps with
  | nil => intro st; simp [fuzzyGo]
  | cons p rest ih =>
    intro st
    simp only [fuzzyGo, ih, fuzzyStep_errors, List.countP_cons]
    omega

theorem nodup_append_singleton {α : Type} {l : List α} {k : α}
    (h : l.Nodup) (hk : k ∉ l) : (l ++ [k]).Nodup := by
  simp [List.nodup_append, h, hk]

theorem resolveStep_pending_nodup (pi : List (String × String)) (src : String)
    (acc : ResolveOut) (it : RelatedItem) (h : acc.pending.Nodup) :
    (resolveStep pi src acc it).pending.Nodup := by
  simp only [resolveStep]
  repeat' split
  all_goals first
    | exact h
    | (rename_i hk
       exact nodup_append_singleton h hk)

theorem resolveItems_pending_nodup (pi : List (String × String)) (src : String) :
    ∀ (items : List RelatedItem) (acc : ResolveOut),
      acc.pending.Nodup → (resolveItems pi src acc items).pending.Nodup := by
  intro items
  induction items with
  | nil => intro acc h; exact h
  | cons it rest ih =>
    intro acc h
    exact ih _ (resolveStep_pending_nodup pi src acc it h)

theorem resolveGo_pending_nodup (pi : List (String × String)) :
    ∀ (entries : List (String × Chunk)) (acc : ResolveOut),
      acc.pending.Nodup → (resolveGo pi acc entries).pending.Nodup := by
  intro entries
  induction entries with
  | nil => intro acc h; exact h
  | cons e rest ih =>
    intro acc h
    exact ih _ (resolveItems_pending_nodup pi e.1 (relatedOf e.2) acc h)

/-- C5: for each fuzzy pattern exactly one store query is issued, with the
pattern wrapped in `%` wildcards and at most 10 results requested; the
candidate map binds a pattern exactly when its query succeeded and the
result, filtered to rows of the current document, is nonempty (and then to
that filtered list); query failures are counted per pattern without aborting
the remaining lookups; and the pending-pattern set produced by resolution
holds each pattern at most once. -/
theorem C5_fuzzy_lookup_batch (db : DBOracle) (docId : String)
    (pending : List String) :
    ((fuzzyLookups db docId pending).events =
        pending.map (fun p => Event.findNodes (wrapPattern p) 10))
    ∧ (∀ q, alGet (fuzzyLookups db docId pending).map q =
        if q ∈ pending then expectedLookup db docId q else none)
    ∧ ((fuzzyLookups db docId pending).errors =
        pending.countP (fun p => exceptFails (db.find_nodes_by_path (wrapPattern p) 10)))
    ∧ (∀ (cm : List (String × Chunk)) (pi : List (String × String)),
        (resolveRefs cm pi).pending.Nodup) := by
  refine ⟨?_, ?_, ?_, ?_⟩
  · rw [fuzzyLookups, fuzzyGo_events]
    rfl
  · intro q
    rw [fuzzyLookups, fuzzyGo_map]
    by_cases hq : q ∈ pending
    · by_cases he : expectedLookup db docId q ≠ none
      · simp [hq, he]
      · simp only [ne_eq, not_not] at he
        simp [hq, he, alGet]
    · simp [hq, alGet]
  · rw [fuzzyLookups, fuzzyGo_errors]
    simp
  · intro cm pi
    exact resolveGo_pending_nodup pi cm {} (by simp)

/-! ### C8: wholesale embedding failure is fatal, per-record failure is not -/

/-- C8: when the batch embedding call itself raises, the run aborts with no
document id and no node insertion is ever attempted; when the call returns,
the run is aborted only by the all-inserts-failed rule, so per-record
embedding failures merely surface as skipped insertions. -/
theorem C8_embedding_call_fatality (db : DBOracle) (emb : EmbOracle)
    (docId : String) (chunks : List Chunk)
    (hnodes : (prepNodes docId chunks).nodes ≠ []) :
    (∀ e, emb.generate_node_embeddings (prepNodes docId chunks).nodes =
          Except.error e →
        (runPhase4 db emb docId chunks).ret = none
        ∧ ∀ n ok, Event.insertNode n ok ∉ (runPhase4 db emb docId chunks).events)
    ∧ (∀ l, emb.generate_node_embeddings (prepNodes docId chunks).nodes =
          Except.ok l →
        ((runPhase4 db emb docId chunks).ret = none ↔
          (insertNodes db l).inserted = 0 ∧ (insertNodes db l).failed > 0)) := by
  constructor
  · intro e he
    simp only [runPhase4, if_neg hnodes, he]
    constructor
    · trivial
    · intro n ok
      simp [fuzzyLookups, fuzzyGo_events]
  · intro l hl
    simp only [runPhase4, if_neg hnodes, hl]
    by_cases hg : (insertNodes db l).inserted = 0 ∧ (insertNodes db l).failed > 0
    · simp only [if_pos hg]
      simpa using hg
    · simp only [if_neg hg]
      constructor
      · intro habs
        simp at habs
      · intro hc
        exact absurd hc hg

/-! ### C2: the embedding gate on node insertion -/

/-- A successful `insert_node` call event. -/
def isInsertOkEv : Event → Bool
  | Event.insertNode _ true => true
  | _ => false

/-- A failed `insert_node` call event. -/
def isInsertFailEv : Event → Bool
  | Event.insertNode _ false => true
  | _ => false

theorem insertGo_spec (db : DBOracle) :
    ∀ (ns : List NodeRec) (st : InsState), ∃ d : List Event,
      (insertGo db st ns).events = st.events ++ d
      ∧ (insertGo db st ns).failed =
          st.failed + ns.countP (fun n => !nodeGate n) + d.countP isInsertFailEv
      ∧ (insertGo db st ns).inserted = st.inserted + d.countP isInsertOkEv
      ∧ (∀ n ok, Event.insertNode n ok ∈ d → nodeGate n = true)
      ∧ (∀ r ok, Event.insertRef r ok ∉ d) := by
  intro ns
  induction ns with
  | nil =>
    intro st
    exact ⟨[], by simp [insertGo], by simp [insertGo], by simp [insertGo],
      by simp, by simp⟩
  | cons n rest ih =>
    intro st
    simp only [insertGo]
    obtain ⟨d, h1, h2, h3, h4, h5⟩ := ih (insertStep db st n)
    cases hoid : n.original_id with
    | none =>
      have hstep : insertStep db st n = { st with failed := st.failed + 1 } := by
        simp [insertStep, hoid]
      have hgate : nodeGate n = false := by simp [nodeGate, hoid]
      refine ⟨d, ?_, ?_, ?_, h4, h5⟩
      · rw [h1, hstep]
      · rw [h2, hstep]
        simp only [List.countP_cons, hgate]
        simp
        omega
      · rw [h3, hstep]
    | some oid =>
      by_cases hne : oid = ""
      · have hstep : insertStep db st n = { st with failed := st.failed + 1 } := by
          simp [insertStep, hoid, hne]
        have hgate : nodeGate n = false := by simp [nodeGate, hoid, hne]
        refine ⟨d, ?_, ?_, ?_, h4, h5⟩
        · rw [h1, hstep]
        · rw [h2, hstep]
          simp only [List.countP_cons, hgate]
          simp
          omega
        · rw [h3, hstep]
      · by_cases hemb : n.embedding_generated
        · have hgate : nodeGate n = true := by
            simp [nodeGate, hoid, hne, hemb]
          cases hdb : db.insert_node st.calls n with
          | ok dbId =>
            have hstep : insertStep db st n =
                { st with idMap := alSet st.idMap oid dbId
                          inserted := st.inserted + 1
                          calls := st.calls + 1
                          events := st.events ++ [Event.insertNode n true] } := by
              simp [insertStep, hoid, hne, hemb, hdb]
            refine ⟨Event.insertNode n true :: d, ?_, ?_, ?_, ?_, ?_⟩
            · rw [h1, hstep]
              simp
            · rw [h2, hstep]
              simp only [List.countP_cons, hgate, isInsertFailEv]
              simp
            · rw [h3, hstep]
              simp only [List.countP_cons, isInsertOkEv]
              simp
              omega
            · intro n' ok' hmem
              rcases List.mem_cons.mp hmem with h | h
              · cases h
                exact hgate
              · exact h4 n' ok' h
            · intro r ok'
              simp only [List.mem_cons]
              push_neg
              exact ⟨by simp, h5 r ok'⟩
          | error e =>
            have hstep : insertStep db st n =
                { st with failed := st.failed + 1
                          calls := st.calls + 1
                          events := st.events ++ [Event.insertNode n false] } := by
              simp [insertStep, hoid, hne, hemb, hdb]
            refine ⟨Event.insertNode n false :: d, ?_, ?_, ?_, ?_, ?_⟩
            · rw [h1, hstep]
              simp
            · rw [h2, hstep]
              simp only [List.countP_cons, hgate, isInsertFailEv]
              simp
              omega
            · rw [h3, hstep]
              simp only [List.countP_cons, isInsertOkEv]
              simp
            · intro n' ok' hmem
              rcases List.mem_cons.mp hmem with h | h
              · cases h
                exact hgate
              · exact h4 n' ok' h
            · intro r ok'
              simp only [List.mem_cons]
              push_neg
              exact ⟨by simp, h5 r ok'⟩
        · have hstep : insertStep db st n = { st with failed := st.failed + 1 } := by
            simp [insertStep, hoid, hne, hemb]
          have hgate : nodeGate n = false := by
            simp [nodeGate, hemb]
          refine ⟨d, ?_, ?_, ?_, h4, h5⟩
          · rw [h1, hstep]
          · rw [h2, hstep]
            simp only [List.countP_cons, hgate]
            simp
            omega
          · rw [h3, hstep]

theorem insertNodes_events_spec (db : DBOracle) (ns : List NodeRec) :
    (insertNodes db ns).failed =
        ns.countP (fun n => !nodeGate n) +
          (insertNodes db ns).events.countP isInsertFailEv
    ∧ (insertNodes db ns).inserted =
        (insertNodes db ns).events.countP isInsertOkEv
    ∧ (∀ n ok, Event.insertNode n ok ∈ (insertNodes db ns).events →
        nodeGate n = true)
    ∧ (∀ r ok, Event.insertRef r ok ∉ (insertNodes db ns).events) := by
  obtain ⟨d, h1, h2, h3, h4, h5⟩ := insertGo_spec db ns {}
  rw [insertNodes] at *
  have hd : (insertGo db {} ns).events = d := by
    rw [h1]
    rfl
  rw [hd, h2, h3]
  exact ⟨by simp [InsState.failed], by simp [InsState.inserted], h4, h5⟩

/-! ### The relationship phase: dedup and no-self-edge invariants -/

/-- Counts successful `insert_reference` writes for the directed pair `p`. -/
def refPred (p : Int × Int) : Event → Bool
  | Event.insertRef r true => decide (r.source_node_id = p.1 ∧ r.target_node_id = p.2)
  | _ => false

def refSuccessCount (evs : List Event) (p : Int × Int) : Nat :=
  evs.countP (refPred p)

/-- Counts all `insert_reference` attempts for the directed pair `p`,
successful or not. -/
def refAnyPred (p : Int × Int) : Event → Bool
  | Event.insertRef r _ => decide (r.source_node_id = p.1 ∧ r.target_node_id = p.2)
  | _ => false

def refAttemptCount (evs : List Event) (p : Int × Int) : Nat :=
  evs.countP (refAnyPred p)

/-- Invariant carried through the relationship phase: the trace holds no
node-insertion events, every reference attempt has distinct endpoints, and
the directed pairs recorded in `inserted_reference_pairs` are exactly those
with one successful write (all others have none). -/
def RelGood (st : RelState) : Prop :=
  (∀ n ok, Event.insertNode n ok ∉ st.events)
  ∧ (∀ r ok, Event.insertRef r ok ∈ st.events →
      r.source_node_id ≠ r.target_node_id)
  ∧ (∀ p : Int × Int, refSuccessCount st.events p = if p ∈ st.pairs then 1 else 0)

theorem relGood_init : RelGood {} := by
  refine ⟨by simp, by simp, ?_⟩
  intro p
  simp [refSuccessCount]

theorem relGood_parent_event (st st' : RelState) (a b : Int) (ok : Bool)
    (hev : st'.events = st.events ++ [Event.updateParent a b ok])
    (hpr : st'.pairs = st.pairs) (h : RelGood st) : RelGood st' := by
  obtain ⟨h1, h2, h3⟩ := h
  refine ⟨?_, ?_, ?_⟩
  · intro n ok' hmem
    rw [hev] at hmem
    rcases List.mem_append.mp hmem with hm | hm
    · exact h1 n ok' hm
    · simp at hm
  · intro r ok' hmem
    rw [hev] at hmem
    rcases List.mem_append.mp hmem with hm | hm
    · exact h2 r ok' hm
    · simp at hm
  · intro p
    rw [hev, hpr, refSuccessCount, List.countP_append]
    have : List.countP (refPred p) [Event.updateParent a b ok] = 0 := by
      simp [refPred]
    rw [this]
    exact h3 p

theorem refAttempt_good (db : DBOracle) (st : RelState) (s t : Int)
    (ty : String) (str : Rat) (hst : s ≠ t) (h : RelGood st) :
    RelGood (refAttempt db st s t ty str) := by
  obtain ⟨h1, h2, h3⟩ := h
  simp only [refAttempt]
  by_cases hp : (s, t) ∈ st.pairs
  · simp only [if_pos hp]
    exact ⟨h1, h2, h3⟩
  · simp only [if_neg hp]
    cases hdb : db.insert_reference st.refCalls
        { source_node_id := s, target_node_id := t
          reference_type := ty, strength := str } with
    | ok u =>
      dsimp only
      refine ⟨?_, ?_, ?_⟩
      · intro n ok' hmem
        rcases List.mem_append.mp hmem with hm | hm
        · exact h1 n ok' hm
        · simp at hm
      · intro r ok' hmem
        rcases List.mem_append.mp hmem with hm | hm
        · exact h2 r ok' hm
        · simp at hm
          rw [hm.1]
          exact hst
      · intro p
        obtain ⟨p1, p2⟩ := p
        rw [refSuccessCount, List.countP_append]
        have hold := h3 (p1, p2)
        rw [refSuccessCount] at hold
        by_cases hpq : p1 = s ∧ p2 = t
        · have hnotin : (p1, p2) ∉ st.pairs := by
            rw [hpq.1, hpq.2]
            exact hp
          rw [hold]
          simp only [if_neg hnotin]
          have hone : List.countP (refPred (p1, p2))
              [Event.insertRef ⟨s, t, ty, str⟩ true] = 1 := by
            simp [refPred, hpq.1.symm, hpq.2.symm]
          rw [hone]
          have hin : (p1, p2) ∈ st.pairs ++ [(s, t)] := by
            simp [hpq.1, hpq.2]
          simp [hin]
        · have hzero : List.countP (refPred (p1, p2))
              [Event.insertRef ⟨s, t, ty, str⟩ true] = 0 := by
            simp only [List.countP_cons, List.countP_nil, refPred]
            simp only [decide_eq_true_eq]
            have hne : ¬(s = p1 ∧ t = p2) := fun hh => hpq ⟨hh.1.symm, hh.2.symm⟩
            simp [hne]
          rw [hzero, hold]
          have hmem : ((p1, p2) ∈ st.pairs ++ [(s, t)]) ↔ (p1, p2) ∈ st.pairs := by
            simp only [List.mem_append, List.mem_singleton]
            constructor
            · intro hh
              rcases hh with hh | hh
              · exact hh
              · exact absurd ⟨congrArg Prod.fst hh, congrArg Prod.snd hh⟩ hpq
            · intro hh
              exact Or.inl hh
          by_cases hin : (p1, p2) ∈ st.pairs
          · simp [hin, hmem.mpr hin]
          · simp only [if_neg hin, Nat.add_zero]
            rw [if_neg (fun hh => hin (hmem.mp hh))]
    | error e =>
      dsimp only
      refine ⟨?_, ?_, ?_⟩
      · intro n ok' hmem
        rcases List.mem_append.mp hmem with hm | hm
        · exact h1 n ok' hm
        · simp at hm
      · intro r ok' hmem
        rcases List.mem_append.mp hmem with hm | hm
        · exact h2 r ok' hm
        · simp at hm
          rw [hm.1]
          exact hst
      · intro p
        rw [refSuccessCount, List.countP_append]
        have hzero : List.countP (refPred p)
            [Event.insertRef ⟨s, t, ty, str⟩ false] = 0 := by
          simp [refPred]
        rw [hzero]
        exact h3 p

theorem parentStep_good (db : DBOracle) (cm : List (String × Chunk))
    (idMap : List (String × Int)) (st : RelState) (e : String × Int)
    (h : RelGood st) : RelGood (parentStep db cm idMap st e) := by
  simp only [parentStep]
  repeat' split
  all_goals first
    | exact h
    | exact relGood_parent_event st _ _ _ _ rfl rfl h

theorem parentGo_good (db : DBOracle) (cm : List (String × Chunk))
    (idMap : List (String × Int)) :
    ∀ (es : List (String × Int)) (st : RelState),
      RelGood st → RelGood (parentGo db cm idMap st es) := by
  intro es
  induction es with
  | nil => intro st h; exact h
  | cons e rest ih =>
    intro st h
    exact ih _ (parentStep_good db cm idMap st e h)

theorem exactStep_good (db : DBOracle) (idMap : List (String × Int))
    (st : RelState) (pr : String × String) (h : RelGood st) :
    RelGood (exactStep db idMap st pr) := by
  simp only [exactStep]
  repeat' split
  all_goals first
    | exact h
    | (rename_i hg
       exact refAttempt_good db st _ _ _ _ hg.2.2 h)

theorem exactGo_good (db : DBOracle) (idMap : List (String × Int)) :
    ∀ (prs : List (String × String)) (st : RelState),
      RelGood st → RelGood (exactGo db idMap st prs) := by
  intro prs
  induction prs with
  | nil => intro st h; exact h
  | cons pr rest ih =>
    intro st h
    exact ih _ (exactStep_good db idMap st pr h)

theorem fuzzyTargets_good (db : DBOracle) (idMap : List (String × Int))
    (srcDb : Int) :
    ∀ (ts : List StoredNode) (st : RelState),
      RelGood st → RelGood (fuzzyTargets db idMap srcDb st ts) := by
  intro ts
  induction ts with
  | nil => intro st h; exact h
  | cons tn rest ih =>
    intro st h
    refine ih _ ?_
    repeat' split
    all_goals first
      | exact h
      | (rename_i hg
         exact refAttempt_good db st _ _ _ _ (Ne.symm hg.2.2) h)

theorem fuzzyItemStep_good (db : DBOracle) (idMap : List (String × Int))
    (fm : List (String × List StoredNode)) (srcDb : Int) (st : RelState)
    (it : RelatedItem) (h : RelGood st) :
    RelGood (fuzzyItemStep db idMap fm srcDb st it) := by
  simp only [fuzzyItemStep]
  repeat' split
  all_goals first
    | exact h
    | exact fuzzyTargets_good db idMap srcDb _ st h

theorem fuzzyItems_good (db : DBOracle) (idMap : List (String × Int))
    (fm : List (String × List StoredNode)) (srcDb : Int) :
    ∀ (its : List RelatedItem) (st : RelState),
      RelGood st → RelGood (fuzzyItems db idMap fm srcDb st its) := by
  intro its
  induction its with
  | nil => intro st h; exact h
  | cons it rest ih =>
    intro st h
    exact ih _ (fuzzyItemStep_good db idMap fm srcDb st it h)

theorem fuzzyChunks_good (db : DBOracle) (idMap : List (String × Int))
    (fm : List (String × List StoredNode)) :
    ∀ (es : List (String × Chunk)) (st : RelState),
      RelGood st → RelGood (fuzzyChunks db idMap fm st es) := by
  intro es
  induction es with
  | nil => intro st h; exact h
  | cons e rest ih =>
    intro st h
    refine ih _ ?_
    repeat' split
    all_goals first
      | exact h
      | exact fuzzyItems_good db idMap fm _ (relatedOf e.2) st h

/-- The full relationship phase preserves the invariant from the empty
initial state. -/
theorem relPhase_good (db : DBOracle) (cm : List (String × Chunk))
    (idMap : List (String × Int)) (ex : List (String × String))
    (fm : List (String × List StoredNode)) :
    RelGood (fuzzyPass db idMap cm fm
      (exactPass db idMap ex (parentPass db cm idMap {}))) :=
  fuzzyChunks_good db idMap fm cm _
    (exactGo_good db idMap ex _ (parentGo_good db cm idMap idMap {} relGood_init))

theorem fuzzy_events_shape (db : DBOracle) (docId : String) (ps : List String) :
    ∀ e ∈ (fuzzyLookups db docId ps).events, ∃ pt mx, e = Event.findNodes pt mx := by
  intro e he
  rw [fuzzyLookups, fuzzyGo_events] at he
  simp at he
  obtain ⟨p, _, hp⟩ := he
  exact ⟨wrapPattern p, 10, hp.symm⟩

/-- Trace invariants of one Phase-4 run: every attempted node insertion
passed the embedding gate, every reference attempt has distinct endpoints,
and every directed pair has at most one successful reference write. -/
theorem runPhase4_trace (db : DBOracle) (emb : EmbOracle) (docId : String)
    (chunks : List Chunk) :
    (∀ n ok, Event.insertNode n ok ∈ (runPhase4 db emb docId chunks).events →
        nodeGate n = true)
    ∧ (∀ r ok, Event.insertRef r ok ∈ (runPhase4 db emb docId chunks).events →
        r.source_node_id ≠ r.target_node_id)
    ∧ (∀ p, refSuccessCount (runPhase4 db emb docId chunks).events p ≤ 1) := by
  simp only [runPhase4]
  split
  · refine ⟨by simp, by simp, ?_⟩
    intro p
    simp [refSuccessCount]
  · split
    · rename_i e heq
      refine ⟨?_, ?_, ?_⟩
      · intro n ok hmem
        rcases List.mem_append.mp hmem with hm | hm
        · obtain ⟨pt, mx, hpt⟩ := fuzzy_events_shape db docId _ _ hm
          simp at hpt
        · simp at hm
      · intro r ok hmem
        rcases List.mem_append.mp hmem with hm | hm
        · obtain ⟨pt, mx, hpt⟩ := fuzzy_events_shape db docId _ _ hm
          simp at hpt
        · simp at hm
      · intro p
        rw [refSuccessCount, List.countP_append]
        have h1 : List.countP (refPred p)
            (fuzzyLookups db docId (resolveRefs (prepNodes docId chunks).chunkMap
              (prepNodes docId chunks).pathIdx).pending).events = 0 := by
          rw [List.countP_eq_zero]
          intro a ha
          obtain ⟨pt, mx, hpt⟩ := fuzzy_events_shape db docId _ _ ha
          rw [hpt]
          simp [refPred]
        rw [h1]
        simp [refPred]
    · rename_i l heq
      have hins := insertNodes_events_spec db l
      split
      · refine ⟨?_, ?_, ?_⟩
        · intro n ok hmem
          rcases List.mem_append.mp hmem with hm | hm
          · rcases List.mem_append.mp hm with hm' | hm'
            · rcases List.mem_append.mp hm' with hm'' | hm''
              · obtain ⟨pt, mx, hpt⟩ := fuzzy_events_shape db docId _ _ hm''
                simp at hpt
              · simp at hm''
            · simp at hm'
          · exact hins.2.2.1 n ok hm
        · intro r ok hmem
          rcases List.mem_append.mp hmem with hm | hm
          · rcases List.mem_append.mp hm with hm' | hm'
            · rcases List.mem_append.mp hm' with hm'' | hm''
              · obtain ⟨pt, mx, hpt⟩ := fuzzy_events_shape db docId _ _ hm''
                simp at hpt
              · simp at hm''
            · simp at hm'
          · exact absurd hm (hins.2.2.2 r ok)
        · intro p
          rw [refSuccessCount, List.countP_append, List.countP_append,
            List.countP_append]
          have h1 : List.countP (refPred p)
              (fuzzyLookups db docId (resolveRefs (prepNodes docId chunks).chunkMap
                (prepNodes docId chunks).pathIdx).pending).events = 0 := by
            rw [List.countP_eq_zero]
            intro a ha
            obtain ⟨pt, mx, hpt⟩ := fuzzy_events_shape db docId _ _ ha
            rw [hpt]
            simp [refPred]
          have h2 : List.countP (refPred p) (insertNodes db l).events = 0 := by
            rw [List.countP_eq_zero]
            intro a ha
            cases a with
            | insertRef r ok => exact absurd ha (hins.2.2.2 r ok)
            | findNodes pt mx => simp [refPred]
            | genEmbeddings b => simp [refPred]
            | deleteByDoc d o => simp [refPred]
            | insertNode n o => simp [refPred]
            | updateParent a b o => simp [refPred]
          rw [h1, h2]
          simp [refPred]
      · refine ⟨?_, ?_, ?_⟩
        · intro n ok hmem
          rcases List.mem_append.mp hmem with hm | hm
          · rcases List.mem_append.mp hm with hm' | hm'
            · rcases List.mem_append.mp hm' with hm'' | hm''
              · rcases List.mem_append.mp hm'' with hm3 | hm3
                · obtain ⟨pt, mx, hpt⟩ := fuzzy_events_shape db docId _ _ hm3
                  simp at hpt
                · simp at hm3
              · simp at hm''
            · exact hins.2.2.1 n ok hm'
          · exact absurd hm ((relPhase_good db (prepNodes docId chunks).chunkMap
              (insertNodes db l).idMap (resolveRefs (prepNodes docId chunks).chunkMap
                (prepNodes docId chunks).pathIdx).exact
              (fuzzyLookups db docId (resolveRefs (prepNodes docId chunks).chunkMap
                (prepNodes docId chunks).pathIdx).pending).map).1 n ok)
        · intro r ok hmem
          rcases List.mem_append.mp hmem with hm | hm
          · rcases List.mem_append.mp hm with hm' | hm'
            · rcases List.mem_append.mp hm' with hm'' | hm''
              · rcases List.mem_append.mp hm'' with hm3 | hm3
                · obtain ⟨pt, mx, hpt⟩ := fuzzy_events_shape db docId _ _ hm3
                  simp at hpt
                · simp at hm3
              · simp at hm''
            · exact absurd hm' (hins.2.2.2 r ok)
          · exact (relPhase_good db (prepNodes docId chunks).chunkMap
              (insertNodes db l).idMap (resolveRefs (prepNodes docId chunks).chunkMap
                (prepNodes docId chunks).pathIdx).exact
              (fuzzyLookups db docId (resolveRefs (prepNodes docId chunks).chunkMap
                (prepNodes docId chunks).pathIdx).pending).map).2.1 r ok hm
        · intro p
          rw [refSuccessCount, List.countP_append]
          have h1 : List.countP (refPred p)
              ((((fuzzyLookups db docId (resolveRefs (prepNodes docId chunks).chunkMap
                  (prepNodes docId chunks).pathIdx).pending).events ++
                [Event.genEmbeddings (prepNodes docId chunks).nodes.length]) ++
                [Event.deleteByDoc docId
                  (db.delete_nodes_by_document_id docId).toOption.isSome]) ++
                (insertNodes db l).events) = 0 := by
            rw [List.countP_append, List.countP_append, List.countP_append]
            have ha : List.countP (refPred p)
                (fuzzyLookups db docId (resolveRefs (prepNodes docId chunks).chunkMap
                  (prepNodes docId chunks).pathIdx).pending).events = 0 := by
              rw [List.countP_eq_zero]
              intro a ha
              obtain ⟨pt, mx, hpt⟩ := fuzzy_events_shape db docId _ _ ha
              rw [hpt]
              simp [refPred]
            have hb : List.countP (refPred p) (insertNodes db l).events = 0 := by
              rw [List.countP_eq_zero]
              intro a ha
              cases a with
              | insertRef r ok => exact absurd ha (hins.2.2.2 r ok)
              | findNodes pt mx => simp [refPred]
              | genEmbeddings b => simp [refPred]
              | deleteByDoc d o => simp [refPred]
              | insertNode n o => simp [refPred]
              | updateParent a b o => simp [refPred]
            rw [ha, hb]
            simp [refPred]
          rw [h1]
          have h2 := (relPhase_good db (prepNodes docId chunks).chunkMap
              (insertNodes db l).idMap (resolveRefs (prepNodes docId chunks).chunkMap
                (prepNodes docId chunks).pathIdx).exact
              (fuzzyLookups db docId (resolveRefs (prepNodes docId chunks).chunkMap
                (prepNodes docId chunks).pathIdx).pending).map).2.2 p
          rw [refSuccessCount] at h2
          rw [h2]
          split <;> simp

/-- Python-truthiness miss test for a path key: `pathIndex.get(key)` is
absent or falsy. -/
def missKey (pi : List (String × String)) (k : String) : Bool :=
  match alGet pi k with
  | some t => t == ""
  | none => true

theorem resolveStep_exact_mem (pi : List (String × String)) (src : String)
    (acc : ResolveOut) (it : RelatedItem) (pr : String × String) :
    pr ∈ (resolveStep pi src acc it).exact ↔
      pr ∈ acc.exact ∨ ∃ k t, mentionKey it = some k ∧ alGet pi k = some t ∧
        t ≠ "" ∧ src ≠ t ∧ pr = (src, t) := by
  simp only [resolveStep]
  repeat' split
  all_goals simp_all

theorem resolveItems_exact_mem (pi : List (String × String)) (src : String) :
    ∀ (items : List RelatedItem) (acc : ResolveOut) (pr : String × String),
      pr ∈ (resolveItems pi src acc items).exact ↔
        pr ∈ acc.exact ∨ ∃ it ∈ items, ∃ k t, mentionKey it = some k ∧
          alGet pi k = some t ∧ t ≠ "" ∧ src ≠ t ∧ pr = (src, t) := by
  intro items
  induction items with
  | nil => intro acc pr; simp [resolveItems]
  | cons it rest ih =>
    intro acc pr
    simp only [resolveItems, ih, resolveStep_exact_mem, List.mem_cons]
    constructor
    · rintro ((hin | ⟨k, t, h1, h2, h3, h4, h5⟩) | ⟨it', hit', hex⟩)
      · exact Or.inl hin
      · exact Or.inr ⟨it, Or.inl rfl, k, t, h1, h2, h3, h4, h5⟩
      · exact Or.inr ⟨it', Or.inr hit', hex⟩
    · rintro (hin | ⟨it', hit' | hit', hex⟩)
      · exact Or.inl (Or.inl hin)
      · exact Or.inl (Or.inr (hit' ▸ hex))
      · exact Or.inr ⟨it', hit', hex⟩

theorem resolveGo_exact_mem (pi : List (String × String)) :
    ∀ (entries : List (String × Chunk)) (acc : ResolveOut) (pr : String × String),
      pr ∈ (resolveGo pi acc entries).exact ↔
        pr ∈ acc.exact ∨ ∃ e ∈ entries, ∃ it ∈ relatedOf e.2, ∃ k t,
          mentionKey it = some k ∧ alGet pi k = some t ∧ t ≠ "" ∧ e.1 ≠ t ∧
          pr = (e.1, t) := by
  intro entries
  induction entries with
  | nil => intro acc pr; simp [resolveGo]
  | cons e rest ih =>
    intro acc pr
    simp only [resolveGo, ih, resolveItems_exact_mem, List.mem_cons]
    constructor
    · rintro ((hin | ⟨it, hit, k, t, h1, h2, h3, h4, h5⟩) | ⟨e', he', hex⟩)
      · exact Or.inl hin
      · exact Or.inr ⟨e, Or.inl rfl, it, hit, k, t, h1, h2, h3, h4, h5⟩
      · exact Or.inr ⟨e', Or.inr he', hex⟩
    · rintro (hin | ⟨e', he' | he', hex⟩)
      · exact Or.inl (Or.inl hin)
      · exact Or.inl (Or.inr (he' ▸ hex))
      · exact Or.inr ⟨e', he', hex⟩

theorem resolveStep_pending_mem (pi : List (String × String)) (src : String)
    (acc : ResolveOut) (it : RelatedItem) (q : String) :
    q ∈ (resolveStep pi src acc it).pending ↔
      q ∈ acc.pending ∨ ∃ k, mentionKey it = some k ∧ missKey pi k = true ∧
        q = k := by
  simp only [resolveStep]
  repeat' split
  all_goals simp_all [missKey]

theorem resolveItems_pending_mem (pi : List (String × String)) (src : String) :
    ∀ (items : List RelatedItem) (acc : ResolveOut) (q : String),
      q ∈ (resolveItems pi src acc items).pending ↔
        q ∈ acc.pending ∨ ∃ it ∈ items, ∃ k, mentionKey it = some k ∧
          missKey pi k = true ∧ q = k := by
  intro items
  induction items with
  | nil => intro acc q; simp [resolveItems]
  | cons it rest ih =>
    intro acc q
    simp only [resolveItems, ih, resolveStep_pending_mem, List.mem_cons]
    constructor
    · rintro ((hq | ⟨k, h1, h2, h3⟩) | ⟨it', hit', hex⟩)
      · exact Or.inl hq
      · exact Or.inr ⟨it, Or.inl rfl, k, h1, h2, h3⟩
      · exact Or.inr ⟨it', Or.inr hit', hex⟩
    · rintro (hq | ⟨it', hit' | hit', hex⟩)
      · exact Or.inl (Or.inl hq)
      · exact Or.inl (Or.inr (hit' ▸ hex))
      · exact Or.inr ⟨it', hit', hex⟩

theorem resolveGo_pending_mem (pi : List (String × String)) :
    ∀ (entries : List (String × Chunk)) (acc : ResolveOut) (q : String),
      q ∈ (resolveGo pi acc entries).pending ↔
        q ∈ acc.pending ∨ ∃ e ∈ entries, ∃ it ∈ relatedOf e.2, ∃ k,
          mentionKey it = some k ∧ missKey pi k = true ∧ q = k := by
  intro entries
  induction entries with
  | nil => intro acc q; simp [resolveGo]
  | cons e rest ih =>
    intro acc q
    simp only [resolveGo, ih, resolveItems_pending_mem, List.mem_cons]
    constructor
    · rintro ((hq | ⟨it, hit, hex⟩) | ⟨e', he', hex⟩)
      · exact Or.inl hq
      · exact Or.inr ⟨e, Or.inl rfl, it, hit, hex⟩
      · exact Or.inr ⟨e', Or.inr he', hex⟩
    · rintro (hq | ⟨e', he' | he', hex⟩)
      · exact Or.inl (Or.inl hq)
      · exact Or.inl (Or.inr (he' ▸ hex))
      · exact Or.inr ⟨e', he', hex⟩

/-- Dispatch: a run either returns before Phase 4 with an empty trace, or is
exactly a Phase-4 run over the enriched chunks. -/
theorem processDocument_events_cases (env : Env) (fp : String)
    (did : Option String) :
    (processDocument env fp did).events = [] ∨
    ∃ ec, env.enrich_result = some ec ∧
      processDocument env fp did =
        runPhase4 env.db env.emb (effectiveDocId fp did) ec := by
  simp only [processDocument]
  split
  · left
    rfl
  · split
    · left
      rfl
    · split
      · left
        rfl
      · split
        · left
          rfl
        · split
          · left
            rfl
          · split
            · left
              rfl
            · split
              · left
                rfl
              · rename_i ec heq
                right
                exact ⟨ec, heq, rfl⟩

/-- C4: every reference edge the run attempts to write satisfies
`source_storage_id ≠ target_storage_id` (both the exact and fuzzy passes
re-check it), and already at exact resolution a mention resolving to its own
source chunk is dropped: every resolved exact candidate pair has distinct
endpoints. -/
theorem C4_no_self_references :
    (∀ (env : Env) (fp : String) (did : Option String) (r : RefData) (ok : Bool),
        Event.insertRef r ok ∈ (processDocument env fp did).events →
        r.source_node_id ≠ r.target_node_id)
    ∧ (∀ (cm : List (String × Chunk)) (pi : List (String × String))
        (s t : String), (s, t) ∈ (resolveRefs cm pi).exact → s ≠ t) := by
  constructor
  · intro env fp did r ok hmem
    rcases processDocument_events_cases env fp did with h | ⟨ec, _, h⟩
    · rw [h] at hmem
      simp at hmem
    · rw [h] at hmem
      exact (runPhase4_trace env.db env.emb _ ec).2.1 r ok hmem
  · intro cm pi s t hmem
    rw [resolveRefs] at hmem
    rcases (resolveGo_exact_mem pi cm {} (s, t)).mp hmem with h | ⟨e, _, it, _, k, t', _, _, _, hne, hpr⟩
    · simp at h
    · have h1 : s = e.1 := congrArg Prod.fst hpr
      have h2 : t = t' := congrArg Prod.snd hpr
      rw [h1, h2]
      exact hne

/-- C2: no node that failed the embedding gate is ever passed to
`insert_node` — every attempted insertion carries `embedding_generated =
true` and a truthy `original_id` — and within the insertion loop, the failed
count is exactly the gate-skipped records plus the failed store calls, while
the inserted count is exactly the successful store calls. -/
theorem C2_embedding_gate :
    (∀ (env : Env) (fp : String) (did : Option String) (n : NodeRec) (ok : Bool),
        Event.insertNode n ok ∈ (processDocument env fp did).events →
        nodeGate n = true)
    ∧ (∀ (db : DBOracle) (ns : List NodeRec),
        (insertNodes db ns).failed =
          ns.countP (fun n => !nodeGate n) +
            (insertNodes db ns).events.countP isInsertFailEv)
    ∧ (∀ (db : DBOracle) (ns : List NodeRec),
        (insertNodes db ns).inserted =
          (insertNodes db ns).events.countP isInsertOkEv) := by
  refine ⟨?_, fun db ns => (insertNodes_events_spec db ns).1,
    fun db ns => (insertNodes_events_spec db ns).2.1⟩
  intro env fp did n ok hmem
  rcases processDocument_events_cases env fp did with h | ⟨ec, _, h⟩
  · rw [h] at hmem
    simp at hmem
  · rw [h] at hmem
    exact (runPhase4_trace env.db env.emb _ ec).1 n ok hmem

/-- A store whose node inserts succeed with ids 1, 2, … and whose first
reference insert fails while later ones succeed. -/
def dbSeq : DBOracle :=
  { find_nodes_by_path := fun _ _ => Except.error "na"
    delete_nodes_by_document_id := fun _ => Except.ok 0
    insert_node := fun k _ => Except.ok (Int.ofNat k + 1)
    update_node_parent := fun _ _ _ => Except.ok ()
    insert_reference := fun k _ =>
      if k = 0 then Except.error "boom" else Except.ok () }

/-- A chunk at path `P` that mentions path `Q` twice (once as a string, once
as a title list). -/
def chunkA : Chunk :=
  { id := some "A"
    metadata := some { hierarchy_path := ["P"]
                       related_sections :=
                         [RelatedItem.str "Q", RelatedItem.list ["Q"]] } }

/-- A chunk at path `Q`. -/
def chunkB : Chunk :=
  { id := some "B", metadata := some { hierarchy_path := ["Q"] } }

/-- An environment in which the pair (A, B) is resolved twice and the first
reference write fails. -/
def envRetry : Env :=
  { db := dbSeq, emb := embOk, read_result := some "hello"
    chunks_result := some [], enrich_result := some [chunkA, chunkB] }

/-- The node record built for `chunkA` once the embedding gate has passed. -/
def nodeA : NodeRec :=
  { document_id := "guide", node_type := "unknown", title := none, content := ""
    level := none, path := "P", section_type := "unknown", content_type := "text"
    document_position := none, original_id := some "A", link_count := none
    contains_links := none, embedding_generated := true }

/-- C2 witness: the concrete run `envRetry` attempts an insertion of
`nodeA`, and the theorem yields that it passed the gate. -/
theorem C2_witness : nodeGate nodeA = true :=
  C2_embedding_gate.1 envRetry "docs/guide.md" none nodeA true (by decide)

/-- C4 witness: the run `envRetry` writes the reference (1, 2); the theorem
yields that its endpoints differ. -/
theorem C4_witness :
    RefData.source_node_id ⟨1, 2, "related_section_exact", mkRat 9 10⟩ ≠
      RefData.target_node_id ⟨1, 2, "related_section_exact", mkRat 9 10⟩ :=
  C4_no_self_references.1 envRetry "docs/guide.md" none
    ⟨1, 2, "related_section_exact", mkRat 9 10⟩ true (by decide)

/-- C1 counterexample: in the concrete run `envRetry` the directed pair
(1, 2) is discovered twice; the first `insert_reference` attempt fails, the
pair is **not** added to the dedup set, and a second attempt for the very
same pair is made — two attempts in one run, contradicting "at most one
insert_reference attempt is ever made for a given directed pair even if an
earlier attempt failed". -/
theorem C1_counterexample :
    refAttemptCount (processDocument envRetry "docs/guide.md" none).events
      (1, 2) = 2 := by
  decide

/-- C1 (amended): the pair is checked against `inserted_reference_pairs`
before the write but added only after a **successful** write, so within one
run at most one insert succeeds per directed pair; a pair whose earlier
attempt failed may be attempted again. -/
theorem C1_dedup_successful_inserts (env : Env) (fp : String)
    (did : Option String) (p : Int × Int) :
    refSuccessCount (processDocument env fp did).events p ≤ 1 := by
  rcases processDocument_events_cases env fp did with h | ⟨ec, _, h⟩
  · rw [h]
    simp [refSuccessCount]
  · rw [h]
    exact (runPhase4_trace env.db env.emb _ ec).2.2 p

/-- An embedding provider whose batch invocation always raises. -/
def embFail : EmbOracle :=
  { generate_node_embeddings := fun _ => Except.error "transport" }

/-- C8 witness: a concrete run whose embedding call raises returns no
document id. -/
theorem C8_witness :
    (runPhase4 dbFail embFail "doc" [{ id := some "A", metadata := some {} }]).ret
      = none :=
  ((C8_embedding_call_fatality dbFail embFail "doc"
      [{ id := some "A", metadata := some {} }] (by decide)).1 "transport" rfl).1

/-! ### C7: path round-trip, exact hits, and pending-set dedup -/

/-- C7: `hierarchy_path = ["Intro", "Setup"]` joins to the path key
`"Intro > Setup"` (an absent or empty path yields the sentinel
`"Unknown Path"`); a mention given as a title list or as a pre-joined string
normalizes to the same key; a mention whose key hits the path index with a
truthy target different from its source contributes an exact candidate edge;
and a mention whose key misses the index lands in the pending fuzzy set
exactly once, no matter how many chunks mention it. -/
theorem C7_path_round_trip :
    pathStrOf ["Intro", "Setup"] = "Intro > Setup"
    ∧ pathStrOf [] = "Unknown Path"
    ∧ (∀ ts, mentionKey (RelatedItem.list ts) =
        some (String.intercalate " > " ts))
    ∧ (∀ s, mentionKey (RelatedItem.str s) = some s)
    ∧ (∀ (cm : List (String × Chunk)) (pi : List (String × String))
        (e : String × Chunk) (it : RelatedItem) (k t : String),
        e ∈ cm → it ∈ relatedOf e.2 → mentionKey it = some k →
        alGet pi k = some t → t ≠ "" → e.1 ≠ t →
        (e.1, t) ∈ (resolveRefs cm pi).exact)
    ∧ (∀ (cm : List (String × Chunk)) (pi : List (String × String)) (k : String),
        (k ∈ (resolveRefs cm pi).pending ↔
          missKey pi k = true ∧ ∃ e ∈ cm, ∃ it ∈ relatedOf e.2,
            mentionKey it = some k)
        ∧ (resolveRefs cm pi).pending.count k ≤ 1) := by
  refine ⟨by decide, by decide, fun ts => rfl, fun s => rfl, ?_, ?_⟩
  · intro cm pi e it k t he hit hmk halg ht hne
    rw [resolveRefs]
    exact (resolveGo_exact_mem pi cm {} (e.1, t)).mpr
      (Or.inr ⟨e, he, it, hit, k, t, hmk, halg, ht, hne, rfl⟩)
  · intro cm pi k
    constructor
    · rw [resolveRefs]
      rw [resolveGo_pending_mem]
      constructor
      · rintro (habs | ⟨e, he, it, hit, k', h1, h2, rfl⟩)
        · simp at habs
        · exact ⟨h2, e, he, it, hit, h1⟩
      · rintro ⟨hmiss, e, he, it, hit, h1⟩
        exact Or.inr ⟨e, he, it, hit, k, h1, hmiss, rfl⟩
    · exact List.nodup_iff_count_le_one.mp
        (resolveGo_pending_nodup pi cm {} (by simp)) k

/-- C7 witness: in the concrete two-chunk batch, chunk A's mention of path
`"Q"` (present as both a string and a title list) hits chunk B's index entry
and yields the exact candidate pair (A, B). -/
theorem C7_witness :
    ("A", "B") ∈ (resolveRefs (prepNodes "guide" [chunkA, chunkB]).chunkMap
      (prepNodes "guide" [chunkA, chunkB]).pathIdx).exact :=
  C7_path_round_trip.2.2.2.2.1 _ _ ("A", chunkA) (RelatedItem.str "Q") "Q" "B"
    (by decide) (by decide) rfl (by decide) (by decide) (by decide)

end Archon
